import Mathlib

/-!
Verification of the bodeplot repository's numerical core: the Padé
approximation of a time delay (`src/pade.py`), rational-function
multiplication via `numpy.poly1d` (`src/__BodePlots.py` /
`src/bodeplot.py`), model construction and the frequency-response
pipeline.  Python floats are modelled as exact rationals (for the
coefficient algebra) and reals (for the frequency response); Python
lists as Lean lists; raised exceptions as `Except.error`.
-/

namespace BodePlot

/-- Resolution of the `numdeg` argument of `pade`, mirroring
`if not numdeg: numdeg = n` / `elif numdeg < 0: numdeg += n`.
Python's `not numdeg` is true both for `None` and for `0`. -/
def resolveNumdeg (n : ℤ) : Option ℤ → ℤ
  | Option.none => n
  | Option.some d => if d = 0 then n else if d < 0 then d + n else d

/-- One iteration of the numerator loop of `pade`:
`cn *= -T * (numdeg - k + 1)/(numdeg + n - k + 1)/k; num[numdeg-k] = cn`. -/
def numIter (T : ℚ) (p n : ℤ) (st : List ℚ × ℚ) (k : ℕ) : List ℚ × ℚ :=
  let cn := st.2 * (-T * ((p : ℚ) - (k : ℚ) + 1) / ((p : ℚ) + (n : ℚ) - (k : ℚ) + 1) / (k : ℚ))
  (st.1.set (p.toNat - k) cn, cn)

/-- State of the numerator loop of `pade` after `m` iterations, starting from
`num = [0.]*(numdeg+1); num[-1] = 1.; cn = 1.`. -/
def numState (T : ℚ) (p n : ℤ) : ℕ → List ℚ × ℚ
  | 0 => ((List.replicate (p.toNat + 1) (0 : ℚ)).set p.toNat 1, 1)
  | m + 1 => numIter T p n (numState T p n m) (m + 1)

/-- One iteration of the denominator loop of `pade`:
`cd *= T * (n - k + 1)/(numdeg + n - k + 1)/k; den[n-k] = cd`. -/
def denIter (T : ℚ) (p n : ℤ) (st : List ℚ × ℚ) (k : ℕ) : List ℚ × ℚ :=
  let cd := st.2 * (T * ((n : ℚ) - (k : ℚ) + 1) / ((p : ℚ) + (n : ℚ) - (k : ℚ) + 1) / (k : ℚ))
  (st.1.set (n.toNat - k) cd, cd)

/-- State of the denominator loop of `pade` after `m` iterations, starting from
`den = [0.]*(n+1); den[-1] = 1.; cd = 1.`. -/
def denState (T : ℚ) (p n : ℤ) : ℕ → List ℚ × ℚ
  | 0 => ((List.replicate (n.toNat + 1) (0 : ℚ)).set n.toNat 1, 1)
  | m + 1 => denIter T p n (denState T p n m) (m + 1)

/-- The `pade` function of `src/pade.py`: numerator and denominator
coefficients (descending powers of `s`) of the Padé approximation of a
delay `exp(-sT)`, or a `ValueError` when a precondition fails. -/
def pade (T : ℚ) (n : ℤ) (numdeg : Option ℤ) : Except String (List ℚ × List ℚ) :=
  let nd := resolveNumdeg n numdeg
  if ¬ T ≥ 0 then Except.error "require T >= 0"
  else if ¬ n ≥ 0 then Except.error "require n >= 0"
  else if ¬ (0 ≤ nd ∧ nd ≤ n) then Except.error "require 0 <= numdeg <= n"
  else if T = 0 then Except.ok ([1], [1])
  else Except.ok ((numState T nd n nd.toNat).1, (denState T nd n n.toNat).1)

/-- The running product `cn` of the spec's numerator recurrence:
start at 1 and multiply by `-T*(p-k+1)/(p+n-k+1)/k` at step `k`. -/
def cnProd (T : ℚ) (p n : ℤ) : ℕ → ℚ
  | 0 => 1
  | k + 1 => cnProd T p n k *
      (-T * ((p : ℚ) - ((k + 1 : ℕ) : ℚ) + 1) / ((p : ℚ) + (n : ℚ) - ((k + 1 : ℕ) : ℚ) + 1) /
        ((k + 1 : ℕ) : ℚ))

/-- The running product `cd` of the spec's denominator recurrence:
start at 1 and multiply by `T*(n-k+1)/(p+n-k+1)/k` at step `k`. -/
def cdProd (T : ℚ) (p n : ℤ) : ℕ → ℚ
  | 0 => 1
  | k + 1 => cdProd T p n k *
      (T * ((n : ℚ) - ((k + 1 : ℕ) : ℚ) + 1) / ((p : ℚ) + (n : ℚ) - ((k + 1 : ℕ) : ℚ) + 1) /
        ((k + 1 : ℕ) : ℚ))

lemma numState_length (T : ℚ) (p n : ℤ) (m : ℕ) :
    ((numState T p n m).1).length = p.toNat + 1 := by
  induction m with
  | zero => simp [numState]
  | succ m ih => simpa [numState, numIter] using ih

lemma numState_snd (T : ℚ) (p n : ℤ) (m : ℕ) :
    (numState T p n m).2 = cnProd T p n m := by
  induction m with
  | zero => rfl
  | succ m ih => simp [numState, numIter, cnProd, ih]

lemma numState_last (T : ℚ) (p n : ℤ) (m : ℕ) (hm : m ≤ p.toNat) :
    ((numState T p n m).1)[p.toNat]? = some 1 := by
  induction m with
  | zero =>
    simp only [numState]
    rw [List.getElem?_set_self (by simp)]
  | succ m ih =>
    simp only [numState, numIter]
    rw [List.getElem?_set_ne (by omega)]
    exact ih (by omega)

lemma numState_entry (T : ℚ) (p n : ℤ) (m k : ℕ) (hk1 : 1 ≤ k) (hkm : k ≤ m)
    (hm : m ≤ p.toNat) :
    ((numState T p n m).1)[p.toNat - k]? = some (cnProd T p n k) := by
  induction m with
  | zero => omega
  | succ m ih =>
    simp only [numState, numIter]
    rcases Nat.lt_or_ge k (m + 1) with hlt | hge
    · rw [List.getElem?_set_ne (by omega)]
      exact ih (by omega) (by omega)
    · have hk : k = m + 1 := by omega
      subst hk
      rw [List.getElem?_set_self (by rw [numState_length]; omega)]
      rw [numState_snd]
      rfl

lemma denState_length (T : ℚ) (p n : ℤ) (m : ℕ) :
    ((denState T p n m).1).length = n.toNat + 1 := by
  induction m with
  | zero => simp [denState]
  | succ m ih => simpa [denState, denIter] using ih

lemma denState_snd (T : ℚ) (p n : ℤ) (m : ℕ) :
    (denState T p n m).2 = cdProd T p n m := by
  induction m with
  | zero => rfl
  | succ m ih => simp [denState, denIter, cdProd, ih]

lemma denState_last (T : ℚ) (p n : ℤ) (m : ℕ) (hm : m ≤ n.toNat) :
    ((denState T p n m).1)[n.toNat]? = some 1 := by
  induction m with
  | zero =>
    simp only [denState]
    rw [List.getElem?_set_self (by simp)]
  | succ m ih =>
    simp only [denState, denIter]
    rw [List.getElem?_set_ne (by omega)]
    exact ih (by omega)

lemma denState_entry (T : ℚ) (p n : ℤ) (m k : ℕ) (hk1 : 1 ≤ k) (hkm : k ≤ m)
    (hm : m ≤ n.toNat) :
    ((denState T p n m).1)[n.toNat - k]? = some (cdProd T p n k) := by
  induction m with
  | zero => omega
  | succ m ih =>
    simp only [denState, denIter]
    rcases Nat.lt_or_ge k (m + 1) with hlt | hge
    · rw [List.getElem?_set_ne (by omega)]
      exact ih (by omega) (by omega)
    · have hk : k = m + 1 := by omega
      subst hk
      rw [List.getElem?_set_self (by rw [denState_length]; omega)]
      rw [denState_snd]
      rfl

lemma pade_pos_eq (T : ℚ) (n : ℤ) (nd : Option ℤ) (hT : 0 < T) (hn : 0 ≤ n)
    (h0 : 0 ≤ resolveNumdeg n nd) (h1 : resolveNumdeg n nd ≤ n) :
    pade T n nd =
      Except.ok ((numState T (resolveNumdeg n nd) n (resolveNumdeg n nd).toNat).1,
        (denState T (resolveNumdeg n nd) n n.toNat).1) := by
  have hT' : ¬ ¬ T ≥ 0 := not_not_intro (le_of_lt hT)
  have hn' : ¬ ¬ n ≥ 0 := not_not_intro hn
  have hnd' : ¬ ¬ (0 ≤ resolveNumdeg n nd ∧ resolveNumdeg n nd ≤ n) := not_not_intro ⟨h0, h1⟩
  have hT0 : ¬ T = 0 := ne_of_gt hT
  simp only [pade, if_neg hT', if_neg hn', if_neg hnd', if_neg hT0]

/-- The resolution of `numerator_degree` as the claims describe it:
`order` when unspecified, `order + numerator_degree` when negative. -/
def claimResolve (n : ℤ) : Option ℤ → ℤ
  | Option.none => n
  | Option.some d => if d < 0 then d + n else d

lemma claimResolve_bounds_iff (n : ℤ) (nd : Option ℤ) :
    (0 ≤ claimResolve n nd ∧ claimResolve n nd ≤ n) ↔
      (0 ≤ resolveNumdeg n nd ∧ resolveNumdeg n nd ≤ n) := by
  rcases nd with _ | d
  · simp [claimResolve, resolveNumdeg]
  · by_cases hd : d = 0
    · subst hd
      simp [claimResolve, resolveNumdeg]
    · simp only [claimResolve, resolveNumdeg, if_neg hd]

/-- C1: for `T > 0` and a valid resolved pair `(n, p)`, the numerator
coefficient that `pade` stores at position `p - k` (for `k = 1..p`) is the
running product `cn` accumulated by `cn *= -T*(p-k+1)/(p+n-k+1)/k` starting
from 1, and the denominator coefficient at position `n - k` (for `k = 1..n`)
is the running product `cd` accumulated by `cd *= T*(n-k+1)/(p+n-k+1)/k`
starting from 1, in that accumulation order. -/
theorem pade_recurrence (T : ℚ) (n : ℤ) (nd : Option ℤ) (num den : List ℚ) (k : ℕ)
    (hT : 0 < T) (hn : 0 ≤ n) (h0 : 0 ≤ resolveNumdeg n nd) (h1 : resolveNumdeg n nd ≤ n)
    (heq : pade T n nd = Except.ok (num, den)) :
    (1 ≤ k → k ≤ (resolveNumdeg n nd).toNat →
      num[(resolveNumdeg n nd).toNat - k]? = some (cnProd T (resolveNumdeg n nd) n k)) ∧
    (1 ≤ k → k ≤ n.toNat →
      den[n.toNat - k]? = some (cdProd T (resolveNumdeg n nd) n k)) := by
  rw [pade_pos_eq T n nd hT hn h0 h1] at heq
  simp only [Except.ok.injEq, Prod.mk.injEq] at heq
  obtain ⟨h3, h4⟩ := heq
  subst h3
  subst h4
  constructor
  · intro hk1 hk2
    exact numState_entry T (resolveNumdeg n nd) n (resolveNumdeg n nd).toNat k hk1 hk2 le_rfl
  · intro hk1 hk2
    exact denState_entry T (resolveNumdeg n nd) n n.toNat k hk1 hk2 le_rfl

/-- Witness for C1 at `pade(T=1, n=2, numdeg=1)`. -/
theorem pade_recurrence_witness :
    pade 1 2 (Option.some 1) = Except.ok ([-(1/3 : ℚ), 1], [1/6, 2/3, 1]) ∧
    ([-(1/3 : ℚ), 1] : List ℚ)[(resolveNumdeg 2 (Option.some 1)).toNat - 1]? =
      some (cnProd 1 (resolveNumdeg 2 (Option.some 1)) 2 1) ∧
    ([1/6, 2/3, 1] : List ℚ)[(2 : ℤ).toNat - 2]? =
      some (cdProd 1 (resolveNumdeg 2 (Option.some 1)) 2 2) := by
  have heq : pade 1 2 (Option.some 1) = Except.ok ([-(1/3 : ℚ), 1], [1/6, 2/3, 1]) := by
    norm_num [pade, resolveNumdeg, numState, denState, numIter, denIter,
      List.replicate_succ, List.set]
  refine ⟨heq, ?_, ?_⟩
  · exact (pade_recurrence 1 2 (Option.some 1) _ _ 1 (by norm_num) (by norm_num)
      (by norm_num [resolveNumdeg]) (by norm_num [resolveNumdeg]) heq).1
      (by norm_num) (by norm_num [resolveNumdeg])
  · exact (pade_recurrence 1 2 (Option.some 1) _ _ 2 (by norm_num) (by norm_num)
      (by norm_num [resolveNumdeg]) (by norm_num [resolveNumdeg]) heq).2
      (by norm_num) (by norm_num)

/-- C3 (failing input): calling `pade` with an explicit `numdeg = 0` does not
return a numerator of length `numdeg + 1 = 1`: Python's `not numdeg` treats
`0` like `None`, so `numdeg` is silently re-resolved to `n` and
`pade(1, 2, 0)` returns a numerator of length 3, contradicting the
docstring's "If >= 0, specifies degree of numerator". -/
theorem pade_numdeg_zero_bug :
    pade 1 2 (Option.some 0) = Except.ok ([1/12, -(1/2 : ℚ), 1], [1/12, 1/2, 1]) ∧
    ([1/12, -(1/2 : ℚ), 1] : List ℚ).length ≠ 0 + 1 := by
  constructor
  · norm_num [pade, resolveNumdeg, numState, denState, numIter, denIter,
      List.replicate_succ, List.set]
  · norm_num

/-- Counterexample to C4: for `pade(T=1, n=1, numdeg=1)` the coefficient at
index 0 (the highest-degree slot) of the returned numerator is `-1/2`, not 1:
the code fixes the coefficient at the LAST position (`num[-1] = 1.`), which
in descending-power storage is the constant term, not the highest degree. -/
theorem pade_leading_not_one :
    pade 1 1 (Option.some 1) = Except.ok ([-(1/2 : ℚ), 1], [1/2, 1]) ∧
    ([-(1/2 : ℚ), 1] : List ℚ)[0]? ≠ some 1 ∧
    ([1/2, 1] : List ℚ)[0]? ≠ some (1 : ℚ) := by
  refine ⟨?_, by norm_num, by norm_num⟩
  norm_num [pade, resolveNumdeg, numState, denState, numIter, denIter,
    List.replicate_succ, List.set]

lemma pade_ok_getLast (T : ℚ) (n : ℤ) (nd : Option ℤ) (num den : List ℚ)
    (heq : pade T n nd = Except.ok (num, den)) :
    num.getLast? = some 1 ∧ den.getLast? = some 1 := by
  simp only [pade] at heq
  split_ifs at heq
  · simp only [Except.ok.injEq, Prod.mk.injEq] at heq
    obtain ⟨h3, h4⟩ := heq
    subst h3
    subst h4
    simp
  · simp only [Except.ok.injEq, Prod.mk.injEq] at heq
    obtain ⟨h3, h4⟩ := heq
    subst h3
    subst h4
    constructor
    · rw [List.getLast?_eq_getElem?, numState_length]
      simpa using numState_last T (resolveNumdeg n nd) n (resolveNumdeg n nd).toNat le_rfl
    · rw [List.getLast?_eq_getElem?, denState_length]
      simpa using denState_last T (resolveNumdeg n nd) n n.toNat le_rfl

/-- C4 (amended): whenever `pade` succeeds, the coefficient stored at the
last position of the numerator and of the denominator — the constant
(lowest-degree) term in descending-power storage — equals 1. -/
theorem pade_constant_coeff_one (T : ℚ) (n : ℤ) (nd : Option ℤ) (num den : List ℚ)
    (heq : pade T n nd = Except.ok (num, den)) :
    num.getLast? = some 1 ∧ den.getLast? = some 1 :=
  pade_ok_getLast T n nd num den heq

/-- Witness for the amended C4 at `pade(T=1, n=1, numdeg=1)`. -/
theorem pade_constant_coeff_one_witness :
    pade 1 1 (Option.some 1) = Except.ok ([-(1/2 : ℚ), 1], [1/2, 1]) ∧
    ([-(1/2 : ℚ), 1] : List ℚ).getLast? = some 1 ∧
    ([1/2, 1] : List ℚ).getLast? = some (1 : ℚ) := by
  have heq : pade 1 1 (Option.some 1) = Except.ok ([-(1/2 : ℚ), 1], [1/2, 1]) := by
    norm_num [pade, resolveNumdeg, numState, denState, numIter, denIter,
      List.replicate_succ, List.set]
  exact ⟨heq, (pade_constant_coeff_one 1 1 (Option.some 1) _ _ heq).1,
    (pade_constant_coeff_one 1 1 (Option.some 1) _ _ heq).2⟩

/-- C8: for `delay_time = 0` and any valid order and numerator degree,
`pade` returns exactly the identity rational function `([1], [1])`. -/
theorem pade_zero_delay (n : ℤ) (nd : Option ℤ) (hn : 0 ≤ n)
    (h0 : 0 ≤ resolveNumdeg n nd) (h1 : resolveNumdeg n nd ≤ n) :
    pade 0 n nd = Except.ok ([1], [1]) := by
  have hn' : ¬ ¬ n ≥ 0 := not_not_intro hn
  have hnd' : ¬ ¬ (0 ≤ resolveNumdeg n nd ∧ resolveNumdeg n nd ≤ n) := not_not_intro ⟨h0, h1⟩
  simp [pade, hn', hnd']

/-- Witness for C8 at `pade(0, 3, None)`. -/
theorem pade_zero_delay_witness : pade 0 3 Option.none = Except.ok ([1], [1]) :=
  pade_zero_delay 3 Option.none (by norm_num) (by norm_num [resolveNumdeg])
    (by norm_num [resolveNumdeg])

/-- C9: for any `T ≥ 0`, `pade` with order 0 and unspecified numerator degree
returns exactly `([1], [1])` without error: a zero-order approximation
collapses to the identity even for strictly positive delay. -/
theorem pade_order_zero (T : ℚ) (hT : 0 ≤ T) :
    pade T 0 Option.none = Except.ok ([1], [1]) := by
  rcases eq_or_lt_of_le hT with h0 | h0
  · have hT' : ¬ ¬ T ≥ 0 := not_not_intro hT
    simp [pade, resolveNumdeg, hT', ← h0]
  · rw [pade_pos_eq T 0 Option.none h0 le_rfl (by norm_num [resolveNumdeg])
      (by norm_num [resolveNumdeg])]
    norm_num [resolveNumdeg, numState, denState, List.replicate_succ, List.set]

/-- Witness for C9 at `pade(5, 0, None)`. -/
theorem pade_order_zero_witness : pade 5 0 Option.none = Except.ok ([1], [1]) :=
  pade_order_zero 5 (by norm_num)

/-- C5: `pade` fails with an error naming the violated bound exactly when a
precondition is violated — `T < 0`, `n < 0`, or the numerator degree
(resolved by adding the order to negative values) outside `[0, n]` — and in
particular `pade(1, 2, 5)` fails because `5 > n`; no valid input fails. -/
theorem pade_error_characterization :
    (∀ (T : ℚ) (n : ℤ) (nd : Option ℤ),
      (∃ e, pade T n nd = Except.error e) ↔
        (T < 0 ∨ n < 0 ∨ ¬ (0 ≤ claimResolve n nd ∧ claimResolve n nd ≤ n))) ∧
    pade 1 2 (Option.some 5) = Except.error "require 0 <= numdeg <= n" := by
  constructor
  · intro T n nd
    simp only [pade]
    by_cases h1 : ¬ T ≥ 0
    · rw [if_pos h1]
      exact iff_of_true ⟨_, rfl⟩ (Or.inl (not_le.mp h1))
    · rw [if_neg h1]
      by_cases h2 : ¬ n ≥ 0
      · rw [if_pos h2]
        exact iff_of_true ⟨_, rfl⟩ (Or.inr (Or.inl (not_le.mp h2)))
      · rw [if_neg h2]
        by_cases h3 : ¬ (0 ≤ resolveNumdeg n nd ∧ resolveNumdeg n nd ≤ n)
        · rw [if_pos h3]
          refine iff_of_true ⟨_, rfl⟩ (Or.inr (Or.inr ?_))
          rw [claimResolve_bounds_iff]
          exact h3
        · rw [if_neg h3]
          have hrhs : ¬ (T < 0 ∨ n < 0 ∨
              ¬ (0 ≤ claimResolve n nd ∧ claimResolve n nd ≤ n)) := by
            simp only [not_or, not_not]
            exact ⟨not_lt.mpr (not_not.mp h1), not_lt.mpr (not_not.mp h2),
              (claimResolve_bounds_iff n nd).mpr (not_not.mp h3)⟩
          by_cases h4 : T = 0
          · rw [if_pos h4]
            exact iff_of_false (fun ⟨e, he⟩ => Except.noConfusion he) hrhs
          · rw [if_neg h4]
            exact iff_of_false (fun ⟨e, he⟩ => Except.noConfusion he) hrhs
  · norm_num [pade, resolveNumdeg]

/-- Coefficient normalization performed by the `numpy.poly1d` constructor:
leading zeros are stripped; an all-zero or empty list becomes `[0]`. -/
def trimPoly (l : List ℚ) : List ℚ :=
  let t := l.dropWhile (fun c => decide (c = 0))
  if t.isEmpty then [0] else t

/-- Pointwise sum of coefficient lists, the shorter padded at the tail. -/
def padAdd : List ℚ → List ℚ → List ℚ
  | [], g => g
  | f, [] => f
  | a :: f, b :: g => (a + b) :: padAdd f g

/-- Coefficient convolution of two polynomials (`numpy.polymul`). -/
def polyMul : List ℚ → List ℚ → List ℚ
  | [], _ => []
  | a :: f, g => padAdd (g.map (fun c => a * c)) (0 :: polyMul f g)

/-- Product of two `poly1d` polynomials as `add_timedelay` computes it: each
input is normalized by the `poly1d` constructor, the coefficients are
convolved, and the result is normalized again by the `poly1d` constructor. -/
def polyProd (a b : List ℚ) : List ℚ := trimPoly (polyMul (trimPoly a) (trimPoly b))

/-- `add_timedelay`'s rational-function multiplication: numerators and
denominators are multiplied as `poly1d` polynomials
(`num = ptf_num * ppade_num; den = ptf_den * ppade_den`). -/
def rfMul (f g : List ℚ × List ℚ) : List ℚ × List ℚ :=
  (polyProd f.1 g.1, polyProd f.2 g.2)

lemma trimPoly_cons_ne (a : ℚ) (l : List ℚ) (ha : a ≠ 0) : trimPoly (a :: l) = a :: l := by
  simp [trimPoly, List.dropWhile_cons, ha]

lemma trimPoly_all_zero (l : List ℚ) (h : ∀ x ∈ l, x = 0) : trimPoly l = [0] := by
  induction l with
  | nil => rfl
  | cons c cs ih =>
    have hc : c = 0 := h c (List.mem_cons_self c cs)
    subst hc
    simp only [trimPoly, List.dropWhile_cons]
    simpa [trimPoly] using ih (fun x hx => h x (List.mem_cons_of_mem 0 hx))

lemma trimPoly_head_ne (l : List ℚ) (h : ¬ ∀ x ∈ l, x = 0) :
    ∃ c cs, trimPoly l = c :: cs ∧ c ≠ 0 := by
  induction l with
  | nil => exact absurd (by simp) h
  | cons c cs ih =>
    by_cases hc : c = 0
    · have h' : ¬ ∀ x ∈ cs, x = 0 := by
        intro hall
        exact h (by
          intro x hx
          rcases List.mem_cons.mp hx with h1 | h2
          · exact h1.trans hc
          · exact hall x h2)
      obtain ⟨d, ds, hd, hd0⟩ := ih h'
      refine ⟨d, ds, ?_, hd0⟩
      simpa [trimPoly, List.dropWhile_cons, hc] using hd
    · exact ⟨c, cs, trimPoly_cons_ne c cs hc, hc⟩

lemma padAdd_nil_right (xs : List ℚ) : padAdd xs [] = xs := by
  cases xs <;> rfl

lemma polyMul_cons_head (a b : ℚ) (as bs : List ℚ) :
    polyMul (a :: as) (b :: bs) =
      (a * b) :: padAdd (bs.map (fun c => a * c)) (polyMul as (b :: bs)) := by
  simp [polyMul, padAdd]

lemma polyMul_one_left (c : ℚ) (cs : List ℚ) : polyMul [1] (c :: cs) = c :: cs := by
  rw [polyMul_cons_head, show polyMul [] (c :: cs) = [] from rfl, padAdd_nil_right]
  simp

lemma polyMul_zero_left (l : List ℚ) : ∀ x ∈ polyMul [0] l, x = 0 := by
  cases l with
  | nil =>
    intro x hx
    simpa [polyMul, padAdd] using hx
  | cons c cs =>
    intro x hx
    rw [polyMul_cons_head, show polyMul [] (c :: cs) = [] from rfl,
      padAdd_nil_right] at hx
    rcases List.mem_cons.mp hx with h1 | h2
    · simpa using h1
    · obtain ⟨y, _, hy⟩ := List.mem_map.mp h2
      simpa using hy.symm

lemma polyProd_all_zero_left (a b : List ℚ) (ha : ∀ x ∈ a, x = 0) :
    ∀ x ∈ polyProd a b, x = 0 := by
  intro x hx
  rw [polyProd, trimPoly_all_zero a ha] at hx
  have h2 : ∀ y ∈ polyMul [0] (trimPoly b), y = 0 := polyMul_zero_left (trimPoly b)
  rw [trimPoly_all_zero _ h2] at hx
  simpa using hx

lemma polyProd_not_all_zero (a b : List ℚ) (ha : ¬ ∀ x ∈ a, x = 0)
    (hb : ¬ ∀ x ∈ b, x = 0) : ¬ ∀ x ∈ polyProd a b, x = 0 := by
  obtain ⟨c, cs, hc, hc0⟩ := trimPoly_head_ne a ha
  obtain ⟨d, ds, hd, hd0⟩ := trimPoly_head_ne b hb
  intro hall
  have hcd : (c * d) ∈ polyProd a b := by
    rw [polyProd, hc, hd, polyMul_cons_head, trimPoly_cons_ne _ _ (mul_ne_zero hc0 hd0)]
    exact List.mem_cons_self _ _
  exact mul_ne_zero hc0 hd0 (hall _ hcd)

/-- Counterexample to C2: multiplying the identity rational function
`([1],[1])` with `g = ([0,1],[1])` does not return `g` unchanged — the
`poly1d` constructor strips the leading zero of `g`'s numerator, so the
product's numerator is `[1]`, a term silently dropped from `[0,1]`. -/
theorem rfMul_identity_drops_leading_zero :
    rfMul ([1], [1]) ([0, 1], [1]) = ([1], [1]) ∧
    (([1], [1]) : List ℚ × List ℚ) ≠ ([0, 1], [1]) := by
  constructor
  · norm_num [rfMul, polyProd, trimPoly, polyMul, padAdd, List.dropWhile]
  · norm_num

/-- C2 (amended): multiplying the identity rational function `([1],[1])`
with `g` returns `g` unchanged whenever `g`'s numerator and denominator have
nonzero leading coefficients; with leading zeros present, the `poly1d`
normalization strips them. -/
theorem rfMul_identity (a b : ℚ) (as bs : List ℚ) (ha : a ≠ 0) (hb : b ≠ 0) :
    rfMul ([1], [1]) (a :: as, b :: bs) = (a :: as, b :: bs) := by
  have hone : trimPoly [1] = [1] := trimPoly_cons_ne 1 [] one_ne_zero
  simp only [rfMul, polyProd, hone, trimPoly_cons_ne a as ha, trimPoly_cons_ne b bs hb,
    polyMul_one_left, Prod.mk.injEq]

/-- Witness for the amended C2 at `g = ([2,3],[4])`. -/
theorem rfMul_identity_witness : rfMul ([1], [1]) ([2, 3], [4]) = ([2, 3], [4]) :=
  rfMul_identity 2 4 [3] [] (by norm_num) (by norm_num)

/-- Modelled from the spec: the `scipy.signal.TransferFunction` constructor
called by `bodefy` is external to `src/`; per the validation rule of the
spec, model construction must fail with `DegenerateSystem` when the
denominator is the zero polynomial (all coefficients zero). -/
def buildTF (num den : List ℚ) : Except String (List ℚ × List ℚ) :=
  if ∀ c ∈ den, c = 0 then Except.error "DegenerateSystem" else Except.ok (num, den)

/-- Model construction of `bodefy`: when the time delay is truthy, combine
the plant with `pade(td, n)` via `poly1d` multiplication and build the
transfer function from the product; otherwise build it from `(num, den)`
directly. -/
def bodefyModel (num den : List ℚ) (td : ℚ) (n : ℤ) : Except String (List ℚ × List ℚ) :=
  if td ≠ 0 then
    match pade td n Option.none with
    | Except.error e => Except.error e
    | Except.ok pd => buildTF (polyProd num pd.1) (polyProd den pd.2)
  else buildTF num den

lemma pade_error_messages (T : ℚ) (n : ℤ) (nd : Option ℤ) (e : String)
    (heq : pade T n nd = Except.error e) :
    e = "require T >= 0" ∨ e = "require n >= 0" ∨ e = "require 0 <= numdeg <= n" := by
  simp only [pade] at heq
  split_ifs at heq <;>
    first
      | exact Or.inl (Except.error.inj heq).symm
      | exact Or.inr (Or.inl (Except.error.inj heq).symm)
      | exact Or.inr (Or.inr (Except.error.inj heq).symm)

/-- C7: when the effective denominator is the zero polynomial the model
construction of `bodefy` fails with `DegenerateSystem` (producing no
response), and for any denominator with at least one nonzero coefficient it
never fails with that error. -/
theorem bodefy_degenerate :
    (∀ (num den : List ℚ) (td : ℚ) (n : ℤ), 0 ≤ td → 0 ≤ n → (∀ c ∈ den, c = 0) →
      bodefyModel num den td n = Except.error "DegenerateSystem") ∧
    (∀ (num den : List ℚ) (td : ℚ) (n : ℤ), ¬ (∀ c ∈ den, c = 0) →
      bodefyModel num den td n ≠ Except.error "DegenerateSystem") := by
  constructor
  · intro num den td n htd hn hz
    by_cases h0 : td = 0
    · simp only [bodefyModel, h0, ne_eq, not_true_eq_false, if_false, buildTF, if_pos hz]
    · have hpos : 0 < td := lt_of_le_of_ne htd (Ne.symm h0)
      rw [bodefyModel, if_pos h0,
        pade_pos_eq td n Option.none hpos hn (by simp [resolveNumdeg]; omega)
          (by simp [resolveNumdeg])]
      exact if_pos (polyProd_all_zero_left den _ hz)
  · intro num den td n hnz
    by_cases h0 : td = 0
    · simp only [bodefyModel, h0, ne_eq, not_true_eq_false, if_false, buildTF, if_neg hnz]
      exact fun h => Except.noConfusion h
    · rw [bodefyModel, if_pos h0]
      cases hpade : pade td n Option.none with
      | error e =>
        intro h
        have he := Except.error.inj h
        rcases pade_error_messages td n Option.none e hpade with h1 | h1 | h1 <;>
          simp [h1] at he
      | ok pd =>
        have hlast := (pade_ok_getLast td n Option.none pd.1 pd.2 (by rw [hpade])).2
        have hmem : (1 : ℚ) ∈ pd.2 := List.mem_of_getLast?_eq_some hlast
        have hpd : ¬ ∀ x ∈ pd.2, x = 0 := fun hall => one_ne_zero (hall 1 hmem)
        have hden := polyProd_not_all_zero den pd.2 hnz hpd
        simp only [buildTF, if_neg hden]
        exact fun h => Except.noConfusion h

/-- Witness for C7: `den = [0,0]` fails with `DegenerateSystem`;
`den = [10,1]` with delay 1 and order 2 does not. -/
theorem bodefy_degenerate_witness :
    bodefyModel [1] [0, 0] 0 1 = Except.error "DegenerateSystem" ∧
    bodefyModel [1] [10, 1] 1 2 ≠ Except.error "DegenerateSystem" := by
  constructor
  · exact bodefy_degenerate.1 [1] [0, 0] 0 1 le_rfl (by norm_num) (by norm_num)
  · exact bodefy_degenerate.2 [1] [10, 1] 1 2 (by norm_num)

/-- Complex Horner evaluation of a descending-power coefficient list. -/
noncomputable def polyEvalC (coeffs : List ℚ) (s : ℂ) : ℂ :=
  coeffs.foldl (fun acc c => acc * s + (c : ℂ)) 0

/-- The complex gain `H(jω) = N(jω) / D(jω)` evaluated at one frequency. -/
noncomputable def freqResponseH (num den : List ℚ) (w : ℚ) : ℂ :=
  polyEvalC num (Complex.I * (w : ℂ)) / polyEvalC den (Complex.I * (w : ℂ))

/-- Raw phase samples: the argument of `H(jω)` at each sweep frequency. -/
noncomputable def argList (num den : List ℚ) (ws : List ℚ) : List ℝ :=
  ws.map (fun w => Complex.arg (freqResponseH num den w))

/-- Modelled from the spec: the phase-unwrap step applied by `scipy.signal.bode`
is external to `src/`; per the spec it removes artificial ±360° jumps by
adding or subtracting multiples of 360° (2π in radians), placing each
consecutive difference in `[-π, π)`. -/
noncomputable def wrapDiff (d : ℝ) : ℝ :=
  d - 2 * Real.pi * (⌊(d + Real.pi) / (2 * Real.pi)⌋ : ℤ)

/-- Tail of the unwrapped sequence given the previous unwrapped sample. -/
noncomputable def unwrapFrom (prev : ℝ) : List ℝ → List ℝ
  | [] => []
  | x :: xs => (prev + wrapDiff (x - prev)) :: unwrapFrom (prev + wrapDiff (x - prev)) xs

/-- Phase unwrapping of a whole sample sequence. -/
noncomputable def unwrap : List ℝ → List ℝ
  | [] => []
  | x :: xs => x :: unwrapFrom x xs

/-- The phase sequence returned by `bodefy`: unwrapped argument samples
converted to degrees. -/
noncomputable def phaseDeg (num den : List ℚ) (ws : List ℚ) : List ℝ :=
  (unwrap (argList num den ws)).map (fun r => r * 180 / Real.pi)

/-- The magnitude sequence returned by `bodefy`, in decibels. -/
noncomputable def magDB (num den : List ℚ) (ws : List ℚ) : List ℝ :=
  ws.map (fun w => 20 * Real.logb 10 (Complex.abs (freqResponseH num den w)))

lemma wrapDiff_bounds (d : ℝ) : -Real.pi ≤ wrapDiff d ∧ wrapDiff d < Real.pi := by
  have h2pi : (0 : ℝ) < 2 * Real.pi := by positivity
  have hq1 : ((⌊(d + Real.pi) / (2 * Real.pi)⌋ : ℤ) : ℝ) ≤ (d + Real.pi) / (2 * Real.pi) :=
    Int.floor_le _
  have hq2 : (d + Real.pi) / (2 * Real.pi) < (⌊(d + Real.pi) / (2 * Real.pi)⌋ : ℤ) + 1 :=
    Int.lt_floor_add_one _
  rw [le_div_iff₀ h2pi] at hq1
  rw [div_lt_iff₀ h2pi] at hq2
  constructor
  · simp only [wrapDiff]
    nlinarith
  · simp only [wrapDiff]
    nlinarith

lemma wrapDiff_abs_le (d : ℝ) : |wrapDiff d| ≤ Real.pi := by
  obtain ⟨h1, h2⟩ := wrapDiff_bounds d
  rw [abs_le]
  exact ⟨h1, le_of_lt h2⟩

lemma unwrapFrom_consec (l : List ℝ) : ∀ (prev : ℝ) (i : ℕ) (a b : ℝ),
    (prev :: unwrapFrom prev l)[i]? = some a →
    (prev :: unwrapFrom prev l)[i + 1]? = some b → |b - a| ≤ Real.pi := by
  induction l with
  | nil =>
    intro prev i a b ha hb
    rcases i with _ | j
    · simp [unwrapFrom] at hb
    · simp [unwrapFrom] at hb
  | cons x xs ih =>
    intro prev i a b ha hb
    rw [show unwrapFrom prev (x :: xs) =
      (prev + wrapDiff (x - prev)) :: unwrapFrom (prev + wrapDiff (x - prev)) xs
      from rfl] at ha hb
    rcases i with _ | j
    · simp only [List.getElem?_cons_zero, Option.some.injEq] at ha
      simp only [List.getElem?_cons_succ, List.getElem?_cons_zero, Option.some.injEq] at hb
      subst ha
      subst hb
      simpa using wrapDiff_abs_le (x - prev)
    · rw [List.getElem?_cons_succ] at ha hb
      exact ih (prev + wrapDiff (x - prev)) j a b ha hb

lemma unwrap_consec (l : List ℝ) (i : ℕ) (a b : ℝ)
    (ha : (unwrap l)[i]? = some a) (hb : (unwrap l)[i + 1]? = some b) :
    |b - a| ≤ Real.pi := by
  cases l with
  | nil => simp [unwrap] at ha
  | cons x xs =>
    rw [unwrap] at ha hb
    exact unwrapFrom_consec xs x i a b ha hb

/-- C6 (amended): for every model and every frequency sweep, the absolute
difference between consecutive samples of the phase sequence returned by
`bodefy` is at most 180 degrees — the unwrap step places each difference in
`[-180°, 180°)` of the previous sample, so a difference of exactly 180° can
occur, but never more. -/
theorem phase_consecutive_le_180 (num den : List ℚ) (ws : List ℚ) (i : ℕ) (a b : ℝ)
    (ha : (phaseDeg num den ws)[i]? = some a)
    (hb : (phaseDeg num den ws)[i + 1]? = some b) : |b - a| ≤ 180 := by
  simp only [phaseDeg, List.getElem?_map] at ha hb
  obtain ⟨a0, ha0, rfl⟩ : ∃ a0, (unwrap (argList num den ws))[i]? = some a0 ∧
      a0 * 180 / Real.pi = a := by
    cases h : (unwrap (argList num den ws))[i]? with
    | none => rw [h] at ha; simp at ha
    | some v => rw [h] at ha; exact ⟨v, rfl, by simpa using ha⟩
  obtain ⟨b0, hb0, rfl⟩ : ∃ b0, (unwrap (argList num den ws))[i + 1]? = some b0 ∧
      b0 * 180 / Real.pi = b := by
    cases h : (unwrap (argList num den ws))[i + 1]? with
    | none => rw [h] at hb; simp at hb
    | some v => rw [h] at hb; exact ⟨v, rfl, by simpa using hb⟩
  have hdiff : |b0 - a0| ≤ Real.pi := unwrap_consec (argList num den ws) i a0 b0 ha0 hb0
  have hpi : (0 : ℝ) < Real.pi := Real.pi_pos
  have key : b0 * 180 / Real.pi - a0 * 180 / Real.pi = (b0 - a0) * (180 / Real.pi) := by
    field_simp
    ring
  rw [key, abs_mul, abs_of_pos (by positivity : (0 : ℝ) < 180 / Real.pi)]
  calc |b0 - a0| * (180 / Real.pi) ≤ Real.pi * (180 / Real.pi) := by
        exact mul_le_mul_of_nonneg_right hdiff (by positivity)
    _ = 180 := by field_simp

/-- Witness for the amended C6: for the plant `num=[1], den=[1]` and the
sweep `[1, 2]`, consecutive phase samples (both 0°) differ by at most 180°. -/
theorem phase_consecutive_le_180_witness :
    (phaseDeg [1] [1] [1, 2])[0]? = some 0 ∧
    (phaseDeg [1] [1] [1, 2])[1]? = some 0 ∧ |(0 : ℝ) - 0| ≤ 180 := by
  have harg : argList [1] [1] [1, 2] = [0, 0] := by
    have h1 : freqResponseH [1] [1] 1 = 1 := by
      simp [freqResponseH, polyEvalC]
    have h2 : freqResponseH [1] [1] 2 = 1 := by
      simp [freqResponseH, polyEvalC]
    simp [argList, h1, h2, Complex.arg_one]
  have hwrap : wrapDiff 0 = 0 := by
    have hhalf : Real.pi / (2 * Real.pi) = 1 / 2 := by
      rw [div_eq_iff (by positivity : (2 : ℝ) * Real.pi ≠ 0)]
      ring
    have hfl : ⌊Real.pi / (2 * Real.pi)⌋ = 0 := by
      rw [hhalf]
      norm_num
    simp [wrapDiff, hfl]
  have hph : phaseDeg [1] [1] [1, 2] = [0, 0] := by
    simp [phaseDeg, harg, unwrap, unwrapFrom, hwrap]
  refine ⟨by simp [hph], by simp [hph], ?_⟩
  exact phase_consecutive_le_180 [1] [1] [1, 2] 0 0 0 (by simp [hph]) (by simp [hph])

/-- Counterexample to C6: for the model `num=[1,0,1], den=[1]` and the sweep
`[1/2, 2]`, `H(jω)` is `3/4` then `-3`, whose arguments are 0 and π; the
unwrapped phase sequence is `[0°, -180°]`, so consecutive samples differ by
exactly 180° — not strictly less than 180°. (No adjustment by multiples of
360° can bring a raw jump of exactly 180° below 180°.) -/
theorem phase_jump_exactly_180 :
    phaseDeg [1, 0, 1] [1] [1/2, 2] = [0, -180] ∧ ¬ (|(-180 : ℝ) - 0| < 180) := by
  constructor
  · have h1 : freqResponseH [1, 0, 1] [1] (1/2) = ((3/4 : ℝ) : ℂ) := by
      simp only [freqResponseH, polyEvalC, List.foldl]
      push_cast
      ring_nf
      rw [Complex.I_sq]
      norm_num
    have h2 : freqResponseH [1, 0, 1] [1] 2 = ((-3 : ℝ) : ℂ) := by
      simp only [freqResponseH, polyEvalC, List.foldl]
      push_cast
      ring_nf
      rw [Complex.I_sq]
      norm_num
    have harg : argList [1, 0, 1] [1] [1/2, 2] = [0, Real.pi] := by
      simp only [argList, List.map_cons, List.map_nil, h1, h2]
      rw [Complex.arg_ofReal_of_nonneg (by norm_num), Complex.arg_ofReal_of_neg (by norm_num)]
    have hone : (Real.pi + Real.pi) / (2 * Real.pi) = 1 := by
      rw [div_eq_iff (by positivity : (2 : ℝ) * Real.pi ≠ 0)]
      ring
    have hwrap : wrapDiff Real.pi = -Real.pi := by
      rw [wrapDiff, hone, Int.floor_one]
      push_cast
      ring
    have hunw : unwrap [0, Real.pi] = [0, -Real.pi] := by
      simp [unwrap, unwrapFrom, hwrap]
    rw [phaseDeg, harg, hunw]
    simp only [List.map_cons, List.map_nil]
    congr 1
    · simp
    · congr 1
      rw [div_eq_iff Real.pi_ne_zero]
      ring
  · norm_num

/-- A Python attribute value as stored on a `BodePlot` instance. -/
inductive PyVal where
  | vnone : PyVal
  | vint : ℤ → PyVal
  | vrat : ℚ → PyVal
  | vlist : List ℚ → PyVal
deriving DecidableEq

/-- `setattr(self, k, v)`: the instance dictionary with one binding added
(newest binding first). -/
def setattr (s : List (String × PyVal)) (k : String) (v : PyVal) :
    List (String × PyVal) :=
  (k, v) :: s

/-- Instance attribute lookup in the modelled `__dict__`. -/
def getattrOpt (s : List (String × PyVal)) (k : String) : Option PyVal :=
  (s.find? (fun kv => kv.1 == k)).map (fun kv => kv.2)

/-- The instance state after `BodePlot.__init__` assigns `self.num`,
`self.den`, `self.td`, `self.sys = None` and then applies
`setattr(self, k, v)` for every keyword argument in order. -/
def initState (numerator denominator : List ℚ) (time_delay : PyVal)
    (kwargs : List (String × PyVal)) : List (String × PyVal) :=
  kwargs.foldl (fun s kv => setattr s kv.1 kv.2)
    (setattr (setattr (setattr (setattr [] "num" (PyVal.vlist numerator))
      "den" (PyVal.vlist denominator)) "td" time_delay) "sys" PyVal.vnone)

/-- Python truthiness of an attribute value (`if self.td:`). -/
def pyTruthy : PyVal → Bool
  | PyVal.vnone => false
  | PyVal.vint z => z != 0
  | PyVal.vrat q => q != 0
  | PyVal.vlist l => !l.isEmpty

/-- Coefficient list carried by an attribute value. -/
def asList : PyVal → List ℚ
  | PyVal.vlist l => l
  | _ => []

/-- Numeric value carried by an attribute value, as the delay time. -/
def asRat : PyVal → ℚ
  | PyVal.vrat q => q
  | PyVal.vint z => (z : ℚ)
  | _ => 0

/-- Order value carried by the `n` attribute. -/
def asOrder : PyVal → ℤ
  | PyVal.vint z => z
  | _ => 1

/-- Model construction performed by `BodePlot.bodefy` on the instance state:
it reads `self.num`, `self.den`, `self.td` and `getattr(self, "n", 1)`; with
a truthy delay it combines the plant with `pade(self.td, n)` via `poly1d`
multiplication, and builds the transfer function. -/
def bodefyModelOf (s : List (String × PyVal)) : Except String (List ℚ × List ℚ) :=
  let numv := (getattrOpt s "num").getD PyVal.vnone
  let denv := (getattrOpt s "den").getD PyVal.vnone
  let tdv := (getattrOpt s "td").getD PyVal.vnone
  let nv := (getattrOpt s "n").getD (PyVal.vint 1)
  if pyTruthy tdv then
    match pade (asRat tdv) (asOrder nv) Option.none with
    | Except.error e => Except.error e
    | Except.ok pd => buildTF (polyProd (asList numv) pd.1) (polyProd (asList denv) pd.2)
  else buildTF (asList numv) (asList denv)

/-- The (frequency, magnitude, phase) triple computed from a model over a
frequency sweep. -/
noncomputable def bodeTriple (m : List ℚ × List ℚ) (ws : List ℚ) :
    List ℝ × List ℝ × List ℝ :=
  (ws.map (fun w => (w : ℝ)), magDB m.1 m.2 ws, phaseDeg m.1 m.2 ws)

/-- The full result of `BodePlot.bodefy` on an instance state: the frequency
response triple of the constructed model, or the construction error. -/
noncomputable def bodefyTriple (s : List (String × PyVal)) (ws : List ℚ) :
    Except String (List ℝ × List ℝ × List ℝ) :=
  (bodefyModelOf s).map (fun m => bodeTriple m ws)

lemma getattrOpt_setattr_ne (s : List (String × PyVal)) (k k' : String) (v : PyVal)
    (h : k' ≠ k) : getattrOpt (setattr s k' v) k = getattrOpt s k := by
  simp [getattrOpt, setattr, List.find?_cons, h]

lemma getattrOpt_setattr_self (s : List (String × PyVal)) (k : String) (v : PyVal) :
    getattrOpt (setattr s k v) k = some v := by
  simp [getattrOpt, setattr, List.find?_cons]

lemma getattrOpt_foldl_ne (kws : List (String × PyVal)) (s : List (String × PyVal))
    (k : String) (h : ∀ kv ∈ kws, kv.1 ≠ k) :
    getattrOpt (kws.foldl (fun s kv => setattr s kv.1 kv.2) s) k = getattrOpt s k := by
  induction kws generalizing s with
  | nil => rfl
  | cons kv kws ih =>
    rw [List.foldl_cons, ih _ (fun x hx => h x (List.mem_cons_of_mem kv hx))]
    exact getattrOpt_setattr_ne s k kv.1 kv.2 (h kv (List.mem_cons_self kv kws))

lemma bodefyModelOf_ext (s1 s2 : List (String × PyVal))
    (hnum : getattrOpt s1 "num" = getattrOpt s2 "num")
    (hden : getattrOpt s1 "den" = getattrOpt s2 "den")
    (htd : getattrOpt s1 "td" = getattrOpt s2 "td")
    (hn : getattrOpt s1 "n" = getattrOpt s2 "n") :
    bodefyModelOf s1 = bodefyModelOf s2 := by
  simp only [bodefyModelOf, hnum, hden, htd, hn]

lemma initState_getattr (numerator denominator : List ℚ) (td : PyVal)
    (kw : List (String × PyVal)) (k : String) (hk : ∀ kv ∈ kw, kv.1 ≠ k) :
    getattrOpt (initState numerator denominator td kw) k =
      getattrOpt (setattr (setattr (setattr (setattr [] "num" (PyVal.vlist numerator))
        "den" (PyVal.vlist denominator)) "td" td) "sys" PyVal.vnone) k :=
  getattrOpt_foldl_ne kw _ k hk

lemma initState_append_n (numerator denominator : List ℚ) (td : PyVal)
    (kw : List (String × PyVal)) (v : PyVal) :
    getattrOpt (initState numerator denominator td (kw ++ [("n", v)])) "n" = some v := by
  rw [initState, List.foldl_append, List.foldl_cons, List.foldl_nil]
  exact getattrOpt_setattr_self _ "n" v

/-- C10: two `BodePlot` constructions with equal numerator, denominator and
time delay, with an equal (or equally absent) keyword argument `n`, and whose
remaining keyword arguments have names outside `num, den, td, n, sys`,
produce equal `bodefy` results on every sweep: attributes injected from
unrecognized keyword arguments have no influence on the frequency response. -/
theorem bodefy_kwargs_noninterference (numerator denominator : List ℚ) (td : PyVal)
    (nopt : Option PyVal) (kw1 kw2 : List (String × PyVal)) (ws : List ℚ)
    (h1 : ∀ kv ∈ kw1,
      kv.1 ≠ "num" ∧ kv.1 ≠ "den" ∧ kv.1 ≠ "td" ∧ kv.1 ≠ "n" ∧ kv.1 ≠ "sys")
    (h2 : ∀ kv ∈ kw2,
      kv.1 ≠ "num" ∧ kv.1 ≠ "den" ∧ kv.1 ≠ "td" ∧ kv.1 ≠ "n" ∧ kv.1 ≠ "sys") :
    bodefyTriple (initState numerator denominator td
      (kw1 ++ (nopt.map (fun v => ("n", v))).toList)) ws =
    bodefyTriple (initState numerator denominator td
      (kw2 ++ (nopt.map (fun v => ("n", v))).toList)) ws := by
  rcases nopt with _ | v
  · rw [show ((Option.none : Option PyVal).map (fun v => ("n", v))).toList = [] from rfl,
      List.append_nil, List.append_nil]
    have enum := initState_getattr numerator denominator td kw1 "num"
      (fun kv hkv => (h1 kv hkv).1)
    have enum2 := initState_getattr numerator denominator td kw2 "num"
      (fun kv hkv => (h2 kv hkv).1)
    have eden := initState_getattr numerator denominator td kw1 "den"
      (fun kv hkv => (h1 kv hkv).2.1)
    have eden2 := initState_getattr numerator denominator td kw2 "den"
      (fun kv hkv => (h2 kv hkv).2.1)
    have etd := initState_getattr numerator denominator td kw1 "td"
      (fun kv hkv => (h1 kv hkv).2.2.1)
    have etd2 := initState_getattr numerator denominator td kw2 "td"
      (fun kv hkv => (h2 kv hkv).2.2.1)
    have en := initState_getattr numerator denominator td kw1 "n"
      (fun kv hkv => (h1 kv hkv).2.2.2.1)
    have en2 := initState_getattr numerator denominator td kw2 "n"
      (fun kv hkv => (h2 kv hkv).2.2.2.1)
    simp only [bodefyTriple]
    rw [bodefyModelOf_ext _ _ (enum.trans enum2.symm) (eden.trans eden2.symm)
      (etd.trans etd2.symm) (en.trans en2.symm)]
  · rw [show ((Option.some v).map (fun v => ("n", v))).toList = [("n", v)] from rfl]
    have hext1 : ∀ k : String, k ≠ "n" →
        (∀ kv ∈ kw1, kv.1 ≠ k) → ∀ kv ∈ kw1 ++ [("n", v)], kv.1 ≠ k := by
      intro k hkn hkw kv hkv
      rcases List.mem_append.mp hkv with hl | hr
      · exact hkw kv hl
      · rw [List.mem_singleton.mp hr]
        exact fun h => hkn h.symm
    have hext2 : ∀ k : String, k ≠ "n" →
        (∀ kv ∈ kw2, kv.1 ≠ k) → ∀ kv ∈ kw2 ++ [("n", v)], kv.1 ≠ k := by
      intro k hkn hkw kv hkv
      rcases List.mem_append.mp hkv with hl | hr
      · exact hkw kv hl
      · rw [List.mem_singleton.mp hr]
        exact fun h => hkn h.symm
    have enum := initState_getattr numerator denominator td (kw1 ++ [("n", v)]) "num"
      (hext1 "num" (by simp) (fun kv hkv => (h1 kv hkv).1))
    have enum2 := initState_getattr numerator denominator td (kw2 ++ [("n", v)]) "num"
      (hext2 "num" (by simp) (fun kv hkv => (h2 kv hkv).1))
    have eden := initState_getattr numerator denominator td (kw1 ++ [("n", v)]) "den"
      (hext1 "den" (by simp) (fun kv hkv => (h1 kv hkv).2.1))
    have eden2 := initState_getattr numerator denominator td (kw2 ++ [("n", v)]) "den"
      (hext2 "den" (by simp) (fun kv hkv => (h2 kv hkv).2.1))
    have etd := initState_getattr numerator denominator td (kw1 ++ [("n", v)]) "td"
      (hext1 "td" (by simp) (fun kv hkv => (h1 kv hkv).2.2.1))
    have etd2 := initState_getattr numerator denominator td (kw2 ++ [("n", v)]) "td"
      (hext2 "td" (by simp) (fun kv hkv => (h2 kv hkv).2.2.1))
    have en := initState_append_n numerator denominator td kw1 v
    have en2 := initState_append_n numerator denominator td kw2 v
    simp only [bodefyTriple]
    rw [bodefyModelOf_ext _ _ (enum.trans enum2.symm) (eden.trans eden2.symm)
      (etd.trans etd2.symm) (en.trans en2.symm)]

/-- Witness for C10: differing unrecognized keyword arguments (`color` vs
`label`) leave the `bodefy` result unchanged. -/
theorem bodefy_kwargs_noninterference_witness :
    bodefyTriple (initState [1] [1] PyVal.vnone
      ([("color", PyVal.vint 3)] ++
        ((Option.none : Option PyVal).map (fun v => ("n", v))).toList)) [1] =
    bodefyTriple (initState [1] [1] PyVal.vnone
      ([("label", PyVal.vrat 2)] ++
        ((Option.none : Option PyVal).map (fun v => ("n", v))).toList)) [1] := by
  refine bodefy_kwargs_noninterference [1] [1] PyVal.vnone Option.none
    [("color", PyVal.vint 3)] [("label", PyVal.vrat 2)] [1] ?_ ?_
  · intro kv hkv
    rw [List.mem_singleton.mp hkv]
    refine ⟨by simp, by simp, by simp, by simp, by simp⟩
  · intro kv hkv
    rw [List.mem_singleton.mp hkv]
    refine ⟨by simp, by simp, by simp, by simp, by simp⟩

end BodePlot
